import Mathlib

-- Verification of the link-state database substrate declared in
-- openr/decision/LinkState.h.  The header ships declarations only, so every
-- operation below is modelled from the specification's description of its
-- behaviour (HoldableValue hold/decay semantics, Link identity and
-- per-endpoint accessors, LinkState per-node link sets).

set_option maxHeartbeats 1000000

-- ## Lexicographic comparison of strings and pairs
-- C++ compares std::string lexicographically and std::pair by the
-- lexicographic extension; std::minmax over pairs canonicalises the two
-- (node, iface) endpoints of a Link.  These comparators are structural so
-- concrete instances evaluate inside the kernel.

/-- Lexicographic strict comparison of char lists by code point,
modelling std::string operator< . -/
def listCharLt : List Char → List Char → Bool
  | _, [] => false
  | [], _ :: _ => true
  | a :: as, b :: bs =>
    if a.toNat < b.toNat then true
    else if b.toNat < a.toNat then false
    else listCharLt as bs

/-- std::string operator< on Lean strings. -/
def strLt (a b : String) : Bool := listCharLt a.data b.data

/-- Lexicographic strict comparison of pairs, modelling std::pair
operator< built from comparisons of the components. -/
def lexLt {α β : Type} [DecidableEq α] (la : α → α → Bool) (lb : β → β → Bool)
    (x y : α × β) : Bool :=
  la x.1 y.1 || (decide (x.1 = y.1) && lb x.2 y.2)

theorem listCharLt_asymm : ∀ x y, listCharLt x y = true → listCharLt y x = false := by
  intro x
  induction x with
  | nil => intro y h; cases y with
    | nil => simp [listCharLt] at h
    | cons b bs => simp [listCharLt]
  | cons a as ih =>
    intro y h
    cases y with
    | nil => simp [listCharLt] at h
    | cons b bs =>
      simp only [listCharLt] at h ⊢
      by_cases hab : a.toNat < b.toNat
      · have hba : ¬ b.toNat < a.toNat := by omega
        simp [hab, hba]
      · by_cases hba : b.toNat < a.toNat
        · simp [hab, hba] at h
        · simp only [hab, hba, if_false] at h
          simp [hab, hba, ih bs h]

theorem listCharLt_conn : ∀ x y, listCharLt x y = false → listCharLt y x = false → x = y := by
  intro x
  induction x with
  | nil => intro y h1 _; cases y with
    | nil => rfl
    | cons b bs => simp [listCharLt] at h1
  | cons a as ih =>
    intro y h1 h2
    cases y with
    | nil => simp [listCharLt] at h2
    | cons b bs =>
      simp only [listCharLt] at h1 h2
      by_cases hab : a.toNat < b.toNat
      · simp [hab] at h1
      · by_cases hba : b.toNat < a.toNat
        · simp [hba, hab] at h2
        · simp only [hab, hba, if_false] at h1 h2
          have hc : a = b := by
            have hn : a.toNat = b.toNat := by omega
            exact Char.ext (UInt32.ext hn)
          subst hc
          rw [ih bs h1 h2]

theorem listCharLt_trans :
    ∀ x y z, listCharLt x y = true → listCharLt y z = true → listCharLt x z = true := by
  intro x
  induction x with
  | nil =>
    intro y z h1 h2
    cases y with
    | nil => simp [listCharLt] at h1
    | cons b bs =>
      cases z with
      | nil => simp [listCharLt] at h2
      | cons c cs => simp [listCharLt]
  | cons a as ih =>
    intro y z h1 h2
    cases y with
    | nil => simp [listCharLt] at h1
    | cons b bs =>
      cases z with
      | nil => simp [listCharLt] at h2
      | cons c cs =>
        simp only [listCharLt] at h1 h2 ⊢
        by_cases hab : a.toNat < b.toNat
        · by_cases hbc : b.toNat < c.toNat
          · have : a.toNat < c.toNat := by omega
            simp [this]
          · by_cases hcb : c.toNat < b.toNat
            · simp [hbc, hcb] at h2
            · have : a.toNat < c.toNat := by omega
              simp [this]
        · by_cases hba : b.toNat < a.toNat
          · simp [hab, hba] at h1
          · simp only [hab, hba, if_false] at h1
            by_cases hbc : b.toNat < c.toNat
            · have hac : a.toNat < c.toNat := by omega
              simp [hac]
            · by_cases hcb : c.toNat < b.toNat
              · simp [hbc, hcb] at h2
              · simp only [hbc, hcb, if_false] at h2
                have hac : ¬ a.toNat < c.toNat := by omega
                have hca : ¬ c.toNat < a.toNat := by omega
                simp [hac, hca, ih bs cs h1 h2]

theorem strLt_asymm (a b : String) (h : strLt a b = true) : strLt b a = false :=
  listCharLt_asymm a.data b.data h

theorem strLt_conn (a b : String) (h1 : strLt a b = false) (h2 : strLt b a = false) :
    a = b := by
  cases a with
  | mk da =>
    cases b with
    | mk db => exact congrArg String.mk (listCharLt_conn da db h1 h2)

theorem strLt_trans (a b c : String) (h1 : strLt a b = true) (h2 : strLt b c = true) :
    strLt a c = true :=
  listCharLt_trans a.data b.data c.data h1 h2

theorem strLt_irrefl (a : String) : strLt a a = false := by
  cases h : strLt a a
  · rfl
  · have h' := strLt_asymm a a h
    rw [h] at h'
    exact h'

theorem lexLt_asymm {α β : Type} [DecidableEq α] (la : α → α → Bool) (lb : β → β → Bool)
    (ha : ∀ a b, la a b = true → la b a = false)
    (hb : ∀ a b, lb a b = true → lb b a = false)
    (x y : α × β) (h : lexLt la lb x y = true) : lexLt la lb y x = false := by
  have hairr : ∀ a, la a a = false := by
    intro a
    cases hh : la a a
    · rfl
    · have h' := ha a a hh
      rw [hh] at h'
      exact h'
  have hbirr : ∀ b, lb b b = false := by
    intro b
    cases hh : lb b b
    · rfl
    · have h' := hb b b hh
      rw [hh] at h'
      exact h'
  simp only [lexLt, Bool.or_eq_true, Bool.and_eq_true, decide_eq_true_eq] at h
  rcases h with h | ⟨heq, h⟩
  · have h1 := ha _ _ h
    simp only [lexLt, h1, Bool.false_or, Bool.and_eq_true, decide_eq_true_eq]
    by_cases he : y.1 = x.1
    · rw [he] at h
      rw [hairr x.1] at h
      exact absurd h (by simp)
    · simp [he]
  · simp only [lexLt, heq, hairr, Bool.false_or, decide_eq_true_eq]
    simp [hb _ _ h]

theorem lexLt_conn {α β : Type} [DecidableEq α] (la : α → α → Bool) (lb : β → β → Bool)
    (ha : ∀ a b, la a b = false → la b a = false → a = b)
    (hb : ∀ a b, lb a b = false → lb b a = false → a = b)
    (x y : α × β) (h1 : lexLt la lb x y = false) (h2 : lexLt la lb y x = false) :
    x = y := by
  simp only [lexLt, Bool.or_eq_false_iff, Bool.and_eq_false_iff] at h1 h2
  obtain ⟨ha1, hrest1⟩ := h1
  obtain ⟨ha2, hrest2⟩ := h2
  have heq1 : x.1 = y.1 := ha _ _ ha1 ha2
  have hb1 : lb x.2 y.2 = false := by
    rcases hrest1 with h | h
    · rw [decide_eq_false_iff_not] at h; exact absurd heq1 h
    · exact h
  have hb2 : lb y.2 x.2 = false := by
    rcases hrest2 with h | h
    · rw [decide_eq_false_iff_not] at h; exact absurd heq1.symm h
    · exact h
  have heq2 : x.2 = y.2 := hb _ _ hb1 hb2
  exact Prod.ext heq1 heq2

theorem lexLt_trans {α β : Type} [DecidableEq α] (la : α → α → Bool) (lb : β → β → Bool)
    (ha : ∀ a b c, la a b = true → la b c = true → la a c = true)
    (hb : ∀ a b c, lb a b = true → lb b c = true → lb a c = true)
    (x y z : α × β) (h1 : lexLt la lb x y = true) (h2 : lexLt la lb y z = true) :
    lexLt la lb x z = true := by
  simp only [lexLt, Bool.or_eq_true, Bool.and_eq_true, decide_eq_true_eq] at h1 h2 ⊢
  rcases h1 with h1 | ⟨he1, h1⟩
  · rcases h2 with h2 | ⟨he2, h2⟩
    · exact Or.inl (ha _ _ _ h1 h2)
    · exact Or.inl (he2 ▸ h1)
  · rcases h2 with h2 | ⟨he2, h2⟩
    · exact Or.inl (he1 ▸ h2)
    · exact Or.inr ⟨he1.trans he2, hb _ _ _ h1 h2⟩

theorem lexLt_irrefl {α β : Type} [DecidableEq α] (la : α → α → Bool) (lb : β → β → Bool)
    (ha : ∀ a, la a a = false) (hb : ∀ b, lb b b = false) (x : α × β) :
    lexLt la lb x x = false := by
  simp [lexLt, ha, hb]

-- ## HoldableValue<T>  (LinkState.h lines 23-55; behaviour modelled from the
-- spec, section 4.1, since the header declares the methods only)

/-- Modelled from the spec: the HoldableValue<T> cell of LinkState.h.
`val` is the authoritative current value, `heldVal` the pending new value
while a hold is active, `holdTtl` the remaining ticks before `heldVal`
replaces `val`. -/
structure HoldableValue (T : Type) where
  val : T
  heldVal : Option T
  holdTtl : Nat
  deriving Repr, DecidableEq

/-- Modelled from the spec: `value()` returns the currently-authoritative
value, which is `current` whether or not a hold is active. -/
def HoldableValue.value {T : Type} (h : HoldableValue T) : T := h.val

/-- Modelled from the spec: `hasHold()` is true iff `ttl > 0`. -/
def HoldableValue.hasHold {T : Type} (h : HoldableValue T) : Bool :=
  decide (0 < h.holdTtl)

/-- Modelled from the spec: `decrementTtl()`; if `ttl > 0` decrement by one,
and when this reaches zero replace `current` with `held`, clear `held` and
report `true`; a call at `ttl == 0` is a no-op reporting `false`.  (When no
held value is present — unreachable through the public operations — the
current value is kept.) -/
def HoldableValue.decrementTtl {T : Type} (h : HoldableValue T) :
    HoldableValue T × Bool :=
  if h.holdTtl = 0 then (h, false)
  else if h.holdTtl = 1 then
    ({ val := h.heldVal.getD h.val, heldVal := none, holdTtl := 0 }, true)
  else ({ h with holdTtl := h.holdTtl - 1 }, false)

/-- Modelled from the spec: `updateValue(newVal, holdUpTtl, holdDownTtl)`.
`bringingUp old new` stands for the caller/type-specific
`isChangeBringingUp` predicate classifying the transition from the current
value to `newVal`.  Same value with no hold: no-op; same value under a
hold: cancel the pending transition; new value: choose the hold time by
direction, apply immediately when it is zero, otherwise store it held. -/
def HoldableValue.updateValue {T : Type} [DecidableEq T] (bringingUp : T → T → Bool)
    (h : HoldableValue T) (newVal : T) (holdUpTtl holdDownTtl : Nat) :
    HoldableValue T × Bool :=
  if newVal = h.val then
    if h.hasHold then ({ h with heldVal := none, holdTtl := 0 }, false)
    else (h, false)
  else
    if (if bringingUp h.val newVal then holdUpTtl else holdDownTtl) = 0 then
      ({ val := newVal, heldVal := none, holdTtl := 0 }, true)
    else
      ({ h with heldVal := some newVal,
                holdTtl := if bringingUp h.val newVal then holdUpTtl else holdDownTtl },
       false)

/-- Iterated `decrementTtl`: the cell after `n` ticks. -/
def decTicks {T : Type} (h : HoldableValue T) : Nat → HoldableValue T
  | 0 => h
  | n + 1 => (decTicks h n).decrementTtl.1

theorem updateValue_start {T : Type} [DecidableEq T] (up : T → T → Bool)
    (h : HoldableValue T) (v2 : T) (u d k : Nat) (hne : v2 ≠ h.val)
    (hk : ((h.updateValue up v2 u d).1).holdTtl = k) (hkpos : 0 < k) :
    (h.updateValue up v2 u d).1 = ⟨h.val, some v2, k⟩ := by
  by_cases hz : (if up h.val v2 then u else d) = 0
  · exfalso
    rw [HoldableValue.updateValue, if_neg hne, if_pos hz] at hk
    have hk' : (0 : Nat) = k := hk
    omega
  · rw [HoldableValue.updateValue, if_neg hne, if_neg hz] at hk ⊢
    have hk' : (if up h.val v2 then u else d) = k := hk
    rw [hk']

theorem decTicks_held {T : Type} (v1 v2 : T) :
    ∀ j k : Nat, j < k →
      decTicks (⟨v1, some v2, k⟩ : HoldableValue T) j = ⟨v1, some v2, k - j⟩ := by
  intro j
  induction j with
  | zero => intro k hk; simp [decTicks]
  | succ j ih =>
    intro k hk
    have hj : j < k := by omega
    rw [decTicks, ih k hj]
    rw [HoldableValue.decrementTtl]
    have h0 : ¬ (k - j = 0) := by omega
    have h1 : ¬ (k - j = 1) := by omega
    rw [if_neg h0, if_neg h1]
    simp only
    congr 1

theorem decrementTtl_zero {T : Type} (g : HoldableValue T) (hz : g.holdTtl = 0) :
    g.decrementTtl = (g, false) := by
  rw [HoldableValue.decrementTtl, if_pos hz]

/-- C3: after `updateValue(v2, u, d)` starts a hold with `ttl = k > 0`, each
of the first `k-1` `decrementTtl()` calls returns false and leaves
`value() = v1` and `hasHold() = true`; the k-th call returns true, making
`value() = v2` and `hasHold() = false`; a `decrementTtl()` call at
`ttl == 0` is a no-op returning false. -/
theorem holdableValue_decay_law {T : Type} [DecidableEq T] (up : T → T → Bool)
    (h : HoldableValue T) (v2 : T) (u d k : Nat) (hne : v2 ≠ h.val)
    (hk : ((h.updateValue up v2 u d).1).holdTtl = k) (hkpos : 0 < k) :
    (∀ j : Nat, j + 1 < k →
      ((decTicks (h.updateValue up v2 u d).1 j).decrementTtl.2 = false ∧
       (decTicks (h.updateValue up v2 u d).1 (j + 1)).value = h.value ∧
       (decTicks (h.updateValue up v2 u d).1 (j + 1)).hasHold = true)) ∧
    (decTicks (h.updateValue up v2 u d).1 (k - 1)).decrementTtl.2 = true ∧
    (decTicks (h.updateValue up v2 u d).1 k).value = v2 ∧
    (decTicks (h.updateValue up v2 u d).1 k).hasHold = false ∧
    (∀ g : HoldableValue T, g.holdTtl = 0 → g.decrementTtl = (g, false)) := by
  have hstart := updateValue_start up h v2 u d k hne hk hkpos
  rw [hstart]
  have hstep : ∀ k' : Nat,
      decTicks (⟨h.val, some v2, k' + 1⟩ : HoldableValue T) (k' + 1) = ⟨v2, none, 0⟩ := by
    intro k'
    rw [decTicks, decTicks_held h.val v2 k' (k' + 1) (by omega)]
    have h1 : k' + 1 - k' = 1 := by omega
    rw [h1, HoldableValue.decrementTtl]
    simp
  have hfin : decTicks (⟨h.val, some v2, k⟩ : HoldableValue T) k = ⟨v2, none, 0⟩ := by
    have hke : k = (k - 1) + 1 := by omega
    rw [hke]
    exact hstep (k - 1)
  refine ⟨?_, ?_, ?_, ?_, fun g hz => decrementTtl_zero g hz⟩
  · intro j hj
    have hjk : j < k := by omega
    have hjk1 : j + 1 < k := hj
    rw [decTicks_held h.val v2 j k hjk, decTicks_held h.val v2 (j + 1) k hjk1]
    refine ⟨?_, rfl, ?_⟩
    · rw [HoldableValue.decrementTtl]
      have h0 : ¬ (k - j = 0) := by omega
      have h1 : ¬ (k - j = 1) := by omega
      rw [if_neg h0, if_neg h1]
    · rw [HoldableValue.hasHold]
      simp only
      have : 0 < k - (j + 1) := by omega
      simp [this]
  · have hk1 : k - 1 < k := by omega
    rw [decTicks_held h.val v2 (k - 1) k hk1]
    rw [HoldableValue.decrementTtl]
    have : k - (k - 1) = 1 := by omega
    rw [this]
    simp
  · rw [hfin]; rfl
  · rw [hfin]; rfl

theorem holdableValue_decay_law_witness :
    (decTicks ((HoldableValue.updateValue (fun a b => decide (b < a))
        (⟨3, none, 0⟩ : HoldableValue Nat) 8 0 4).1) 4).value = 8 :=
  (holdableValue_decay_law (fun a b => decide (b < a)) ⟨3, none, 0⟩ 8 0 4 4
    (by decide) (by decide) (by decide)).2.2.1

/-- C4: `value()` always returns the authoritative current value; while a
hold started by `updateValue` is pending (through every tick before the
hold decays to zero), `value()` still returns the pre-update current value
and keeps `hasHold() = true`, so the held value is never observable
through `value()` before resolution. -/
theorem holdableValue_value_authoritative {T : Type} [DecidableEq T] (up : T → T → Bool)
    (h : HoldableValue T) (v2 : T) (u d k : Nat) (hne : v2 ≠ h.val)
    (hk : ((h.updateValue up v2 u d).1).holdTtl = k) (hkpos : 0 < k) :
    (∀ g : HoldableValue T, g.value = g.val) ∧
    (∀ j : Nat, j < k →
      (decTicks (h.updateValue up v2 u d).1 j).value = h.value ∧
      (decTicks (h.updateValue up v2 u d).1 j).hasHold = true) := by
  have hstart := updateValue_start up h v2 u d k hne hk hkpos
  rw [hstart]
  refine ⟨fun g => rfl, ?_⟩
  intro j hj
  rw [decTicks_held h.val v2 j k hj]
  refine ⟨rfl, ?_⟩
  rw [HoldableValue.hasHold]
  simp only
  have : 0 < k - j := by omega
  simp [this]

theorem holdableValue_value_authoritative_witness :
    (decTicks ((HoldableValue.updateValue (fun a b => decide (b < a))
        (⟨3, none, 0⟩ : HoldableValue Nat) 8 0 4).1) 3).value = 3 :=
  ((holdableValue_value_authoritative (fun a b => decide (b < a)) ⟨3, none, 0⟩ 8 0 4 4
    (by decide) (by decide) (by decide)).2 3 (by decide)).1

/-- C5: calling `updateValue` with the already-current value while a hold is
active cancels the pending transition: afterwards `hasHold() = false`,
`ttl = 0`, `value()` is unchanged, and the call returns false. -/
theorem holdableValue_cancel_law {T : Type} [DecidableEq T] (up : T → T → Bool)
    (h : HoldableValue T) (u d : Nat) (hhold : h.hasHold = true) :
    (h.updateValue up h.val u d).1.hasHold = false ∧
    (h.updateValue up h.val u d).1.holdTtl = 0 ∧
    (h.updateValue up h.val u d).1.value = h.value ∧
    (h.updateValue up h.val u d).2 = false := by
  rw [HoldableValue.updateValue, if_pos rfl, if_pos hhold]
  exact ⟨rfl, rfl, rfl, rfl⟩

theorem holdableValue_cancel_law_witness :
    (HoldableValue.updateValue (fun a b => decide (b < a))
        (⟨3, some 8, 4⟩ : HoldableValue Nat) 3 0 4).1.hasHold = false :=
  (holdableValue_cancel_law (fun a b => decide (b < a)) ⟨3, some 8, 4⟩ 0 4 (by decide)).1

/-- C6: for `updateValue(newVal, u, d)` with `newVal` different from the
current value, the hold time is `u` when `isChangeBringingUp` classifies
the transition as bringing up and `d` otherwise; if the chosen ttl is 0 the
new value is applied immediately and the call returns true, otherwise the
new value is stored as held, `value()` is unchanged, and the call
returns false. -/
theorem holdableValue_choose_ttl {T : Type} [DecidableEq T] (up : T → T → Bool)
    (h : HoldableValue T) (v : T) (u d : Nat) (hne : v ≠ h.val) :
    ((if up h.val v then u else d) = 0 →
      ((h.updateValue up v u d).1.value = v ∧
       (h.updateValue up v u d).1.hasHold = false ∧
       (h.updateValue up v u d).2 = true)) ∧
    ((if up h.val v then u else d) ≠ 0 →
      ((h.updateValue up v u d).1.holdTtl = (if up h.val v then u else d) ∧
       (h.updateValue up v u d).1.heldVal = some v ∧
       (h.updateValue up v u d).1.value = h.value ∧
       (h.updateValue up v u d).2 = false)) := by
  constructor
  · intro hz
    rw [HoldableValue.updateValue, if_neg hne, if_pos hz]
    exact ⟨rfl, rfl, rfl⟩
  · intro hz
    rw [HoldableValue.updateValue, if_neg hne, if_neg hz]
    exact ⟨rfl, rfl, rfl, rfl⟩

theorem holdableValue_choose_ttl_witness :
    (HoldableValue.updateValue (fun a b => decide (b < a))
        (⟨5, none, 0⟩ : HoldableValue Nat) 3 0 4).1.value = 3 :=
  ((holdableValue_choose_ttl (fun a b => decide (b < a)) ⟨5, none, 0⟩ 3 0 4
    (by decide)).1 (by decide)).1

-- ## Link  (LinkState.h lines 76-140; behaviour modelled from the spec,
-- section 4.2, since the header declares the methods only)

/-- Model of thrift::BinaryAddress: raw address bytes plus an optional
interface name. -/
structure BinaryAddress where
  addr : List Nat
  ifName : Option String
  deriving Repr, DecidableEq

/-- Model of openr::thrift::Adjacency, the one-sided advertisement record an
endpoint contributes: neighbor node name, interface name, metric (optional,
defaulting to 1 when unspecified), MPLS adjacency label, overload flag and
v4/v6 next hops. -/
structure Adjacency where
  otherNodeName : String
  ifName : String
  metric : Option Nat
  adjLabel : Int
  isOverloaded : Bool
  nextHopV4 : BinaryAddress
  nextHopV6 : BinaryAddress
  deriving Repr, DecidableEq

/-- An endpoint key: the (nodeName, ifaceName) pair of one side of a link. -/
abbrev NodeIf := String × String

/-- std::pair ordering over (nodeName, ifaceName). -/
def nifLt (a b : NodeIf) : Bool := lexLt strLt strLt a b

/-- Lexicographic ordering over the canonical pair of endpoint keys. -/
def onLt (x y : NodeIf × NodeIf) : Bool := lexLt nifLt nifLt x y

/-- std::minmax over the two endpoint keys: the canonical, order-independent
representation of a Link's identity. -/
def minmaxP (a b : NodeIf) : NodeIf × NodeIf :=
  if nifLt b a then (b, a) else (a, b)

/-- A deterministic stand-in for the std::hash value precomputed at
construction: any function of the canonical endpoint pair works. -/
def strHash (s : String) : Nat :=
  s.data.foldl (fun h c => h * 31 + c.toNat) 7

def nifHash (p : NodeIf) : Nat := strHash p.1 * 131 + strHash p.2

def onHash (q : NodeIf × NodeIf) : Nat := nifHash q.1 * 131 + nifHash q.2

/-- Modelled from the spec: the Link record of LinkState.h.  Identity fields
(node and interface names, the canonical `orderedNames` pair and the
precomputed `hash`) are set at construction and never change; the
per-endpoint attributes are mutable. -/
structure Link where
  n1 : String
  n2 : String
  if1 : String
  if2 : String
  metric1 : Nat
  metric2 : Nat
  adjLabel1 : Int
  adjLabel2 : Int
  overload1 : Bool
  overload2 : Bool
  nhV41 : BinaryAddress
  nhV42 : BinaryAddress
  nhV61 : BinaryAddress
  nhV62 : BinaryAddress
  orderedNames : NodeIf × NodeIf
  hash : Nat
  deriving Repr, DecidableEq

/-- Modelled from the spec: the Link constructor.  Takes both endpoints'
names and their advertised adjacency records, derives the per-endpoint
attributes (metric defaulting to 1 when unspecified) and precomputes the
canonical min/max endpoint pair and its hash. -/
def mkLink (nodeName1 : String) (adj1 : Adjacency)
    (nodeName2 : String) (adj2 : Adjacency) : Link :=
  { n1 := nodeName1
    n2 := nodeName2
    if1 := adj1.ifName
    if2 := adj2.ifName
    metric1 := adj1.metric.getD 1
    metric2 := adj2.metric.getD 1
    adjLabel1 := adj1.adjLabel
    adjLabel2 := adj2.adjLabel
    overload1 := adj1.isOverloaded
    overload2 := adj2.isOverloaded
    nhV41 := adj1.nextHopV4
    nhV42 := adj2.nextHopV4
    nhV61 := adj1.nextHopV6
    nhV62 := adj2.nextHopV6
    orderedNames := minmaxP (nodeName1, adj1.ifName) (nodeName2, adj2.ifName)
    hash := onHash (minmaxP (nodeName1, adj1.ifName) (nodeName2, adj2.ifName)) }

/-- Modelled from the spec: `operator==` compares the order-independent
endpoint pair. -/
def Link.eq (a b : Link) : Bool := decide (a.orderedNames = b.orderedNames)

/-- Modelled from the spec: `operator<` orders by the order-independent
endpoint pair. -/
def Link.lt (a b : Link) : Bool := onLt a.orderedNames b.orderedNames

def Link.firstNodeName (l : Link) : String := l.orderedNames.1.1

def Link.secondNodeName (l : Link) : String := l.orderedNames.2.1

/-- Modelled from the spec: `getOtherNodeName`, failing with an
invalid-argument error when the name matches neither stored endpoint. -/
def Link.getOtherNodeName (l : Link) (nodeName : String) : Except String String :=
  if nodeName = l.n1 then Except.ok l.n2
  else if nodeName = l.n2 then Except.ok l.n1
  else Except.error "invalid node name"

/-- Total variant of `getOtherNodeName` used where the C++ code calls it on a
name known to be an endpoint (it agrees with `getOtherNodeName` there). -/
def Link.otherNodeT (l : Link) (nodeName : String) : String :=
  if nodeName = l.n1 then l.n2 else l.n1

def Link.getIfaceFromNode (l : Link) (nodeName : String) : Except String String :=
  if nodeName = l.n1 then Except.ok l.if1
  else if nodeName = l.n2 then Except.ok l.if2
  else Except.error "invalid node name"

def Link.getMetricFromNode (l : Link) (nodeName : String) : Except String Nat :=
  if nodeName = l.n1 then Except.ok l.metric1
  else if nodeName = l.n2 then Except.ok l.metric2
  else Except.error "invalid node name"

def Link.getAdjLabelFromNode (l : Link) (nodeName : String) : Except String Int :=
  if nodeName = l.n1 then Except.ok l.adjLabel1
  else if nodeName = l.n2 then Except.ok l.adjLabel2
  else Except.error "invalid node name"

def Link.getOverloadFromNode (l : Link) (nodeName : String) : Except String Bool :=
  if nodeName = l.n1 then Except.ok l.overload1
  else if nodeName = l.n2 then Except.ok l.overload2
  else Except.error "invalid node name"

def Link.getNhV4FromNode (l : Link) (nodeName : String) : Except String BinaryAddress :=
  if nodeName = l.n1 then Except.ok l.nhV41
  else if nodeName = l.n2 then Except.ok l.nhV42
  else Except.error "invalid node name"

def Link.getNhV6FromNode (l : Link) (nodeName : String) : Except String BinaryAddress :=
  if nodeName = l.n1 then Except.ok l.nhV61
  else if nodeName = l.n2 then Except.ok l.nhV62
  else Except.error "invalid node name"

def Link.setNhV4FromNode (l : Link) (nodeName : String) (a : BinaryAddress) :
    Except String Link :=
  if nodeName = l.n1 then Except.ok { l with nhV41 := a }
  else if nodeName = l.n2 then Except.ok { l with nhV42 := a }
  else Except.error "invalid node name"

def Link.setNhV6FromNode (l : Link) (nodeName : String) (a : BinaryAddress) :
    Except String Link :=
  if nodeName = l.n1 then Except.ok { l with nhV61 := a }
  else if nodeName = l.n2 then Except.ok { l with nhV62 := a }
  else Except.error "invalid node name"

def Link.setMetricFromNode (l : Link) (nodeName : String) (d : Nat) :
    Except String Link :=
  if nodeName = l.n1 then Except.ok { l with metric1 := d }
  else if nodeName = l.n2 then Except.ok { l with metric2 := d }
  else Except.error "invalid node name"

def Link.setAdjLabelFromNode (l : Link) (nodeName : String) (a : Int) :
    Except String Link :=
  if nodeName = l.n1 then Except.ok { l with adjLabel1 := a }
  else if nodeName = l.n2 then Except.ok { l with adjLabel2 := a }
  else Except.error "invalid node name"

def Link.setOverloadFromNode (l : Link) (nodeName : String) (b : Bool) :
    Except String Link :=
  if nodeName = l.n1 then Except.ok { l with overload1 := b }
  else if nodeName = l.n2 then Except.ok { l with overload2 := b }
  else Except.error "invalid node name"

/-- Modelled from the spec: a link is unusable for transit when either
endpoint's overload flag is set. -/
def Link.isOverloaded (l : Link) : Bool := l.overload1 || l.overload2

theorem nifLt_asymm (a b : NodeIf) (h : nifLt a b = true) : nifLt b a = false :=
  lexLt_asymm strLt strLt strLt_asymm strLt_asymm a b h

theorem nifLt_conn (a b : NodeIf) (h1 : nifLt a b = false) (h2 : nifLt b a = false) :
    a = b :=
  lexLt_conn strLt strLt strLt_conn strLt_conn a b h1 h2

theorem nifLt_trans (a b c : NodeIf) (h1 : nifLt a b = true) (h2 : nifLt b c = true) :
    nifLt a c = true :=
  lexLt_trans strLt strLt strLt_trans strLt_trans a b c h1 h2

theorem nifLt_irrefl (a : NodeIf) : nifLt a a = false :=
  lexLt_irrefl strLt strLt strLt_irrefl strLt_irrefl a

theorem onLt_asymm (a b : NodeIf × NodeIf) (h : onLt a b = true) : onLt b a = false :=
  lexLt_asymm nifLt nifLt nifLt_asymm nifLt_asymm a b h

theorem onLt_conn (a b : NodeIf × NodeIf) (h1 : onLt a b = false)
    (h2 : onLt b a = false) : a = b :=
  lexLt_conn nifLt nifLt nifLt_conn nifLt_conn a b h1 h2

theorem onLt_trans (a b c : NodeIf × NodeIf) (h1 : onLt a b = true)
    (h2 : onLt b c = true) : onLt a c = true :=
  lexLt_trans nifLt nifLt nifLt_trans nifLt_trans a b c h1 h2

theorem onLt_irrefl (a : NodeIf × NodeIf) : onLt a a = false :=
  lexLt_irrefl nifLt nifLt nifLt_irrefl nifLt_irrefl a

theorem minmaxP_comm (a b : NodeIf) : minmaxP a b = minmaxP b a := by
  rw [minmaxP, minmaxP]
  by_cases hba : nifLt b a = true
  · rw [if_pos hba, if_neg]
    rw [nifLt_asymm b a hba]
    simp
  · have hba' : nifLt b a = false := by
      cases h : nifLt b a
      · rfl
      · exact absurd h hba
    rw [if_neg hba]
    by_cases hab : nifLt a b = true
    · rw [if_pos hab]
    · have hab' : nifLt a b = false := by
        cases h : nifLt a b
        · rfl
        · exact absurd h hab
      rw [if_neg hab]
      rw [nifLt_conn a b hab' hba']

theorem minmaxP_cases (a b : NodeIf) : minmaxP a b = (a, b) ∨ minmaxP a b = (b, a) := by
  rw [minmaxP]
  by_cases h : nifLt b a = true
  · rw [if_pos h]; right; rfl
  · rw [if_neg h]; left; rfl

theorem mkLink_orderedNames_swap (n1 : String) (a1 : Adjacency)
    (n2 : String) (a2 : Adjacency) :
    (mkLink n1 a1 n2 a2).orderedNames = (mkLink n2 a2 n1 a1).orderedNames :=
  minmaxP_comm (n1, a1.ifName) (n2, a2.ifName)

/-- C7: a Link and its mirror (same endpoint records, constructor arguments
swapped) are equal under `operator==`, carry equal stored hash values, and
neither orders before the other under `operator<`. -/
theorem link_mirror_identity (n1 : String) (a1 : Adjacency) (n2 : String) (a2 : Adjacency) :
    Link.eq (mkLink n1 a1 n2 a2) (mkLink n2 a2 n1 a1) = true ∧
    (mkLink n1 a1 n2 a2).hash = (mkLink n2 a2 n1 a1).hash ∧
    Link.lt (mkLink n1 a1 n2 a2) (mkLink n2 a2 n1 a1) = false ∧
    Link.lt (mkLink n2 a2 n1 a1) (mkLink n1 a1 n2 a2) = false := by
  have hon := mkLink_orderedNames_swap n1 a1 n2 a2
  refine ⟨?_, ?_, ?_, ?_⟩
  · rw [Link.eq, hon]
    simp
  · show onHash (minmaxP (n1, a1.ifName) (n2, a2.ifName)) =
      onHash (minmaxP (n2, a2.ifName) (n1, a1.ifName))
    rw [minmaxP_comm]
  · rw [Link.lt, hon, onLt_irrefl]
  · rw [Link.lt, hon, onLt_irrefl]

/-- C8: on a constructed Link, every per-endpoint accessor and setter fails
with an invalid-argument error when called with a node name matching
neither endpoint, and succeeds when called with either endpoint name. -/
theorem link_endpoint_lookup (n1 : String) (a1 : Adjacency) (n2 : String)
    (a2 : Adjacency) (x : String) :
    ((x ≠ n1 ∧ x ≠ n2) →
      ((mkLink n1 a1 n2 a2).getOtherNodeName x = Except.error "invalid node name" ∧
       (mkLink n1 a1 n2 a2).getIfaceFromNode x = Except.error "invalid node name" ∧
       (mkLink n1 a1 n2 a2).getMetricFromNode x = Except.error "invalid node name" ∧
       (mkLink n1 a1 n2 a2).getAdjLabelFromNode x = Except.error "invalid node name" ∧
       (mkLink n1 a1 n2 a2).getOverloadFromNode x = Except.error "invalid node name" ∧
       (mkLink n1 a1 n2 a2).getNhV4FromNode x = Except.error "invalid node name" ∧
       (mkLink n1 a1 n2 a2).getNhV6FromNode x = Except.error "invalid node name" ∧
       ((mkLink n1 a1 n2 a2).setNhV4FromNode x a1.nextHopV4
          = Except.error "invalid node name") ∧
       ((mkLink n1 a1 n2 a2).setNhV6FromNode x a1.nextHopV6
          = Except.error "invalid node name") ∧
       (∀ d : Nat, (mkLink n1 a1 n2 a2).setMetricFromNode x d
          = Except.error "invalid node name") ∧
       (∀ a : Int, (mkLink n1 a1 n2 a2).setAdjLabelFromNode x a
          = Except.error "invalid node name") ∧
       (∀ b : Bool, (mkLink n1 a1 n2 a2).setOverloadFromNode x b
          = Except.error "invalid node name"))) ∧
    ((x = n1 ∨ x = n2) →
      (((mkLink n1 a1 n2 a2).getOtherNodeName x).isOk = true ∧
       ((mkLink n1 a1 n2 a2).getIfaceFromNode x).isOk = true ∧
       ((mkLink n1 a1 n2 a2).getMetricFromNode x).isOk = true ∧
       ((mkLink n1 a1 n2 a2).getAdjLabelFromNode x).isOk = true ∧
       ((mkLink n1 a1 n2 a2).getOverloadFromNode x).isOk = true ∧
       ((mkLink n1 a1 n2 a2).getNhV4FromNode x).isOk = true ∧
       ((mkLink n1 a1 n2 a2).getNhV6FromNode x).isOk = true ∧
       (∀ a : BinaryAddress, ((mkLink n1 a1 n2 a2).setNhV4FromNode x a).isOk = true) ∧
       (∀ a : BinaryAddress, ((mkLink n1 a1 n2 a2).setNhV6FromNode x a).isOk = true) ∧
       (∀ d : Nat, ((mkLink n1 a1 n2 a2).setMetricFromNode x d).isOk = true) ∧
       (∀ a : Int, ((mkLink n1 a1 n2 a2).setAdjLabelFromNode x a).isOk = true) ∧
       (∀ b : Bool, ((mkLink n1 a1 n2 a2).setOverloadFromNode x b).isOk = true))) := by
  have he1 : (mkLink n1 a1 n2 a2).n1 = n1 := rfl
  have he2 : (mkLink n1 a1 n2 a2).n2 = n2 := rfl
  constructor
  · rintro ⟨hx1, hx2⟩
    have g1 : ¬ (x = (mkLink n1 a1 n2 a2).n1) := by rw [he1]; exact hx1
    have g2 : ¬ (x = (mkLink n1 a1 n2 a2).n2) := by rw [he2]; exact hx2
    refine ⟨?_, ?_, ?_, ?_, ?_, ?_, ?_, ?_, ?_, fun d => ?_, fun a => ?_, fun b => ?_⟩
    all_goals
      simp only [Link.getOtherNodeName, Link.getIfaceFromNode, Link.getMetricFromNode,
        Link.getAdjLabelFromNode, Link.getOverloadFromNode, Link.getNhV4FromNode,
        Link.getNhV6FromNode, Link.setNhV4FromNode, Link.setNhV6FromNode,
        Link.setMetricFromNode, Link.setAdjLabelFromNode, Link.setOverloadFromNode,
        if_neg g1, if_neg g2]
  · intro hx
    refine ⟨?_, ?_, ?_, ?_, ?_, ?_, ?_, fun a => ?_, fun a => ?_, fun d => ?_,
      fun a => ?_, fun b => ?_⟩
    all_goals
      rcases hx with hx | hx
      · have g1 : x = (mkLink n1 a1 n2 a2).n1 := hx
        simp only [Link.getOtherNodeName, Link.getIfaceFromNode, Link.getMetricFromNode,
          Link.getAdjLabelFromNode, Link.getOverloadFromNode, Link.getNhV4FromNode,
          Link.getNhV6FromNode, Link.setNhV4FromNode, Link.setNhV6FromNode,
          Link.setMetricFromNode, Link.setAdjLabelFromNode, Link.setOverloadFromNode,
          if_pos g1]
        rfl
      · have g2 : x = (mkLink n1 a1 n2 a2).n2 := hx
        by_cases g1 : x = (mkLink n1 a1 n2 a2).n1
        · simp only [Link.getOtherNodeName, Link.getIfaceFromNode, Link.getMetricFromNode,
            Link.getAdjLabelFromNode, Link.getOverloadFromNode, Link.getNhV4FromNode,
            Link.getNhV6FromNode, Link.setNhV4FromNode, Link.setNhV6FromNode,
            Link.setMetricFromNode, Link.setAdjLabelFromNode, Link.setOverloadFromNode,
            if_pos g1]
          rfl
        · simp only [Link.getOtherNodeName, Link.getIfaceFromNode, Link.getMetricFromNode,
            Link.getAdjLabelFromNode, Link.getOverloadFromNode, Link.getNhV4FromNode,
            Link.getNhV6FromNode, Link.setNhV4FromNode, Link.setNhV6FromNode,
            Link.setMetricFromNode, Link.setAdjLabelFromNode, Link.setOverloadFromNode,
            if_neg g1, if_pos g2]
          rfl

-- ## LinkState  (LinkState.h lines 142-184; behaviour modelled from the
-- spec, section 4.3, since the header declares the methods only)

/-- A shared_ptr<Link>: an address tag (distinguishing distinct shared_ptr
objects) together with the pointed-to Link. -/
abbrev LinkPtr := Nat × Link

/-- LinkState::LinkPtrEqual: compares the pointed-to Links by value. -/
def linkPtrEqual (a b : LinkPtr) : Bool := Link.eq a.2 b.2

/-- LinkState::LinkPtrHash: hashes the pointed-to Link's stored hash. -/
def linkPtrHash (a : LinkPtr) : Nat := a.2.hash

/-- LinkState::LinkPtrLess: orders by the pointed-to Links. -/
def linkPtrLess (a b : LinkPtr) : Bool := Link.lt a.2 b.2

/-- A LinkState::LinkSet: an unordered_set of shared Link handles keyed by
LinkPtrHash / LinkPtrEqual, i.e. by the value of the pointed-to Link. -/
abbrev LinkSet := List LinkPtr

/-- unordered_set::insert — a no-op when an entry equal under LinkPtrEqual
is already present. -/
def insertLink (s : LinkSet) (p : LinkPtr) : LinkSet :=
  if s.any (fun q => linkPtrEqual p q) then s else p :: s

/-- unordered_set::erase of the entry equal to `p` under LinkPtrEqual. -/
def eraseLink (s : LinkSet) (p : LinkPtr) : LinkSet :=
  s.filter (fun q => ! linkPtrEqual p q)

/-- Modelled from the spec: the LinkState database.  `linkMap` sends each
node name to the set of links incident on it (absent node: empty set);
`nodeOverloads` the per-node overload flag (absent node: false). -/
structure LinkState where
  linkMap : String → LinkSet
  nodeOverloads : String → Bool

def emptyLinkState : LinkState := ⟨fun _ => [], fun _ => false⟩

/-- Point update of the node-indexed map. -/
def mapUpd (m : String → LinkSet) (n : String) (f : LinkSet → LinkSet) :
    String → LinkSet :=
  fun x => if x = n then f (m x) else m x

/-- Modelled from the spec: `addLink` inserts the shared Link into the sets
of both of its endpoint node names. -/
def LinkState.addLink (ls : LinkState) (p : LinkPtr) : LinkState :=
  let m1 := mapUpd ls.linkMap p.2.n1 (fun s => insertLink s p)
  { ls with linkMap := mapUpd m1 p.2.n2 (fun s => insertLink s p) }

/-- Modelled from the spec: `removeLink` removes the identity-equal entry
from both endpoint sets; a no-op when absent. -/
def LinkState.removeLink (ls : LinkState) (p : LinkPtr) : LinkState :=
  let m1 := mapUpd ls.linkMap p.2.n1 (fun s => eraseLink s p)
  { ls with linkMap := mapUpd m1 p.2.n2 (fun s => eraseLink s p) }

/-- The loop of `removeLinksFromNode`: for each link of `nodeName`'s set,
erase it from the other endpoint's set. -/
def eraseOtherFold (n : String) (links : List LinkPtr) (m : String → LinkSet) :
    String → LinkSet :=
  links.foldl (fun mm p => mapUpd mm (p.2.otherNodeT n) (fun s => eraseLink s p)) m

/-- Modelled from the spec: `removeLinksFromNode` removes every link incident
on `nodeName` from the other endpoint's set, then clears `nodeName`'s own
set entirely. -/
def LinkState.removeLinksFromNode (ls : LinkState) (n : String) : LinkState :=
  let m1 := eraseOtherFold n (ls.linkMap n) ls.linkMap
  { ls with linkMap := mapUpd m1 n (fun _ => []) }

/-- Modelled from the spec: `linksFromNode` (read view, empty for an unknown
node). -/
def LinkState.linksFromNode (ls : LinkState) (n : String) : LinkSet :=
  ls.linkMap n

/-- Insertion into a list sorted by LinkPtrLess. -/
def insertSortedLink (p : LinkPtr) : List LinkPtr → List LinkPtr
  | [] => [p]
  | q :: qs => if linkPtrLess p q then p :: q :: qs else q :: insertSortedLink p qs

/-- Sorting by LinkPtrLess. -/
def sortLinks : List LinkPtr → List LinkPtr
  | [] => []
  | p :: ps => insertSortedLink p (sortLinks ps)

/-- Modelled from the spec: `orderedLinksFromNode` returns the contents of
`linksFromNode` in the Link ordering. -/
def LinkState.orderedLinksFromNode (ls : LinkState) (n : String) : List LinkPtr :=
  sortLinks (ls.linkMap n)

/-- Modelled from the spec: `isNodeOverloaded`, defaulting to false. -/
def LinkState.isNodeOverloaded (ls : LinkState) (n : String) : Bool :=
  ls.nodeOverloads n

/-- Modelled from the spec: `updateNodeOverloaded` sets the flag and reports
whether it changed. -/
def LinkState.updateNodeOverloaded (ls : LinkState) (n : String) (b : Bool) :
    LinkState × Bool :=
  ({ ls with nodeOverloads := fun x => if x = n then b else ls.nodeOverloads x },
   ls.nodeOverloads n != b)

/-- A mutating call on a LinkState: every Link handed to `addLink` or
`removeLink` is built by the Link constructor (the only way C++ code can
obtain one), carried here as the constructor's arguments plus a shared_ptr
address tag. -/
inductive LSOp where
  | add (addr : Nat) (nodeName1 : String) (adj1 : Adjacency)
      (nodeName2 : String) (adj2 : Adjacency)
  | remove (addr : Nat) (nodeName1 : String) (adj1 : Adjacency)
      (nodeName2 : String) (adj2 : Adjacency)
  | removeFrom (nodeName : String)

def applyOp (ls : LinkState) : LSOp → LinkState
  | LSOp.add a n1 j1 n2 j2 => ls.addLink (a, mkLink n1 j1 n2 j2)
  | LSOp.remove a n1 j1 n2 j2 => ls.removeLink (a, mkLink n1 j1 n2 j2)
  | LSOp.removeFrom n => ls.removeLinksFromNode n

/-- The LinkState reached from the empty database by a call sequence. -/
def applyOps (ops : List LSOp) : LinkState := ops.foldl applyOp emptyLinkState

/-- A constructor-built Link: its canonical endpoint pair is the min/max of
its two stored (node, iface) endpoints. -/
def WFLink (l : Link) : Prop :=
  l.orderedNames = minmaxP (l.n1, l.if1) (l.n2, l.if2)

/-- The database invariant: every stored entry is constructor-built, is
stored under one of its endpoint node names, and the very same entry is
stored under the other endpoint's node name. -/
def LSInv (ls : LinkState) : Prop :=
  ∀ n p, p ∈ ls.linkMap n →
    WFLink p.2 ∧ (n = p.2.n1 ∨ n = p.2.n2) ∧ p ∈ ls.linkMap (p.2.otherNodeT n)

/-- No per-node set holds two entries whose Links are equal. -/
def NodupSets (ls : LinkState) : Prop :=
  ∀ n, (ls.linkMap n).Pairwise (fun a b => linkPtrEqual a b = false)

-- ## Basic membership lemmas

theorem mem_eraseLink {s : LinkSet} {p q : LinkPtr} :
    q ∈ eraseLink s p ↔ q ∈ s ∧ linkPtrEqual p q = false := by
  simp [eraseLink, List.mem_filter]

theorem mem_insertLink_mono {s : LinkSet} {p q : LinkPtr} (h : q ∈ s) :
    q ∈ insertLink s p := by
  rw [insertLink]
  split
  · exact h
  · exact List.mem_cons_of_mem _ h

theorem insertLink_of_not_dup {s : LinkSet} {p : LinkPtr}
    (h : s.any (fun q => linkPtrEqual p q) = false) : insertLink s p = p :: s := by
  rw [insertLink, h]
  simp

theorem linkPtrEqual_iff {a b : LinkPtr} :
    linkPtrEqual a b = true ↔ a.2.orderedNames = b.2.orderedNames := by
  simp [linkPtrEqual, Link.eq]

theorem linkPtrEqual_refl (a : LinkPtr) : linkPtrEqual a a = true := by
  simp [linkPtrEqual, Link.eq]

theorem linkPtrEqual_comm (a b : LinkPtr) : linkPtrEqual a b = linkPtrEqual b a := by
  rw [linkPtrEqual, linkPtrEqual, Link.eq, Link.eq]
  simp [eq_comm]

theorem insertLink_cons_self (s : LinkSet) (p : LinkPtr) :
    insertLink (p :: s) p = p :: s := by
  rw [insertLink]
  have h : (p :: s).any (fun q => linkPtrEqual p q) = true := by
    simp [linkPtrEqual_refl]
  rw [h]
  simp

theorem mapUpd_apply (m : String → LinkSet) (n : String) (f : LinkSet → LinkSet)
    (x : String) : mapUpd m n f x = if x = n then f (m n) else m x := by
  rw [mapUpd]
  by_cases h : x = n
  · rw [if_pos h, if_pos h, h]
  · rw [if_neg h, if_neg h]

-- ## Endpoint lemmas

theorem otherNodeT_cases (l : Link) (x : String) (hx : x = l.n1 ∨ x = l.n2) :
    (x = l.n1 ∧ l.otherNodeT x = l.n2) ∨ (x = l.n2 ∧ l.otherNodeT x = l.n1) := by
  rw [Link.otherNodeT]
  by_cases h : x = l.n1
  · left; exact ⟨h, if_pos h⟩
  · right
    rcases hx with h' | h'
    · exact absurd h' h
    · exact ⟨h', if_neg h⟩

theorem otherNodeT_endpoint (l : Link) (x : String) (hx : x = l.n1 ∨ x = l.n2) :
    l.otherNodeT x = l.n1 ∨ l.otherNodeT x = l.n2 := by
  rcases otherNodeT_cases l x hx with ⟨_, h⟩ | ⟨_, h⟩
  · right; exact h
  · left; exact h

theorem otherNodeT_of_two (l : Link) (a b : String) (ha : a = l.n1 ∨ a = l.n2)
    (hb : b = l.n1 ∨ b = l.n2) (hne : a ≠ b) : l.otherNodeT b = a := by
  rw [Link.otherNodeT]
  by_cases h : b = l.n1
  · rw [if_pos h]
    rcases ha with h' | h'
    · exact absurd (h'.trans h.symm) hne
    · exact h'.symm
  · rw [if_neg h]
    rcases ha with h' | h'
    · exact h'.symm
    · rcases hb with h'' | h''
      · exact absurd h'' h
      · exact absurd (h'.trans h''.symm) hne

theorem wf_eq_endpoints {l l' : Link} (hl : WFLink l) (hl' : WFLink l')
    (h : l.orderedNames = l'.orderedNames) :
    (l'.n1 = l.n1 ∧ l'.n2 = l.n2) ∨ (l'.n1 = l.n2 ∧ l'.n2 = l.n1) := by
  rw [WFLink] at hl hl'
  rw [hl, hl'] at h
  rcases minmaxP_cases (l.n1, l.if1) (l.n2, l.if2) with h1 | h1 <;>
    rcases minmaxP_cases (l'.n1, l'.if1) (l'.n2, l'.if2) with h2 | h2 <;>
    rw [h1, h2] at h <;> simp only [Prod.mk.injEq] at h
  · exact Or.inl ⟨h.1.1.symm, h.2.1.symm⟩
  · exact Or.inr ⟨h.2.1.symm, h.1.1.symm⟩
  · exact Or.inr ⟨h.1.1.symm, h.2.1.symm⟩
  · exact Or.inl ⟨h.2.1.symm, h.1.1.symm⟩

theorem eqEntry_mem_both {ls : LinkState} (hinv : LSInv ls) {p q : LinkPtr}
    {x : String} (hwfp : WFLink p.2) (hmem : q ∈ ls.linkMap x)
    (heq : linkPtrEqual p q = true) :
    q ∈ ls.linkMap p.2.n1 ∧ q ∈ ls.linkMap p.2.n2 := by
  obtain ⟨hwfq, hx, hsym⟩ := hinv x q hmem
  have hboth : q ∈ ls.linkMap q.2.n1 ∧ q ∈ ls.linkMap q.2.n2 := by
    rcases otherNodeT_cases q.2 x hx with ⟨h1, h2⟩ | ⟨h1, h2⟩
    · constructor
      · rw [← h1]; exact hmem
      · rw [← h2]; exact hsym
    · constructor
      · rw [← h2]; exact hsym
      · rw [← h1]; exact hmem
  have hon : p.2.orderedNames = q.2.orderedNames := linkPtrEqual_iff.mp heq
  rcases wf_eq_endpoints hwfp hwfq hon with ⟨e1, e2⟩ | ⟨e1, e2⟩
  · constructor
    · rw [← e1]; exact hboth.1
    · rw [← e2]; exact hboth.2
  · constructor
    · rw [← e2]; exact hboth.2
    · rw [← e1]; exact hboth.1

-- ## addLink / removeLink characterisations

theorem addLink_linkMap (ls : LinkState) (p : LinkPtr) (x : String) :
    (ls.addLink p).linkMap x =
      if x = p.2.n2 then
        insertLink (if p.2.n2 = p.2.n1 then insertLink (ls.linkMap p.2.n1) p
                    else ls.linkMap p.2.n2) p
      else if x = p.2.n1 then insertLink (ls.linkMap p.2.n1) p
      else ls.linkMap x := by
  show mapUpd (mapUpd ls.linkMap p.2.n1 fun s => insertLink s p) p.2.n2
      (fun s => insertLink s p) x = _
  rw [mapUpd_apply, mapUpd_apply, mapUpd_apply]

theorem removeLink_linkMap (ls : LinkState) (p : LinkPtr) (x : String) :
    (ls.removeLink p).linkMap x =
      if x = p.2.n2 then
        eraseLink (if p.2.n2 = p.2.n1 then eraseLink (ls.linkMap p.2.n1) p
                   else ls.linkMap p.2.n2) p
      else if x = p.2.n1 then eraseLink (ls.linkMap p.2.n1) p
      else ls.linkMap x := by
  show mapUpd (mapUpd ls.linkMap p.2.n1 fun s => eraseLink s p) p.2.n2
      (fun s => eraseLink s p) x = _
  rw [mapUpd_apply, mapUpd_apply, mapUpd_apply]

theorem removeFrom_linkMap (ls : LinkState) (n : String) (x : String) :
    (ls.removeLinksFromNode n).linkMap x =
      if x = n then [] else eraseOtherFold n (ls.linkMap n) ls.linkMap x := by
  show mapUpd (eraseOtherFold n (ls.linkMap n) ls.linkMap) n (fun _ => []) x = _
  rw [mapUpd_apply]

theorem mem_removeLink {ls : LinkState} {p q : LinkPtr} {x : String} :
    q ∈ (ls.removeLink p).linkMap x ↔
      q ∈ ls.linkMap x ∧ ((x = p.2.n1 ∨ x = p.2.n2) → linkPtrEqual p q = false) := by
  rw [removeLink_linkMap]
  by_cases h2 : x = p.2.n2
  · subst h2
    rw [if_pos rfl]
    by_cases h1 : p.2.n2 = p.2.n1
    · rw [if_pos h1, mem_eraseLink, mem_eraseLink]
      constructor
      · rintro ⟨⟨hq, he⟩, _⟩
        refine ⟨?_, fun _ => he⟩
        rw [h1]
        exact hq
      · rintro ⟨hq, hcond⟩
        have he := hcond (Or.inr rfl)
        refine ⟨⟨?_, he⟩, he⟩
        rw [← h1]
        exact hq
    · rw [if_neg h1, mem_eraseLink]
      constructor
      · rintro ⟨hq, he⟩
        exact ⟨hq, fun _ => he⟩
      · rintro ⟨hq, hcond⟩
        exact ⟨hq, hcond (Or.inr rfl)⟩
  · rw [if_neg h2]
    by_cases h1 : x = p.2.n1
    · subst h1
      rw [if_pos rfl, mem_eraseLink]
      constructor
      · rintro ⟨hq, he⟩
        exact ⟨hq, fun _ => he⟩
      · rintro ⟨hq, hcond⟩
        exact ⟨hq, hcond (Or.inl rfl)⟩
    · rw [if_neg h1]
      constructor
      · intro hq
        refine ⟨hq, ?_⟩
        rintro (h | h)
        · exact absurd h h1
        · exact absurd h h2
      · rintro ⟨hq, _⟩
        exact hq

theorem LSInv_removeLink {ls : LinkState} {p : LinkPtr} (hwfp : WFLink p.2)
    (hinv : LSInv ls) : LSInv (ls.removeLink p) := by
  intro x q hq
  rw [mem_removeLink] at hq
  obtain ⟨hmem, hcond⟩ := hq
  obtain ⟨hwfq, hx, hsym⟩ := hinv x q hmem
  refine ⟨hwfq, hx, ?_⟩
  rw [mem_removeLink]
  refine ⟨hsym, ?_⟩
  intro _
  cases he : linkPtrEqual p q
  · rfl
  · exfalso
    have hon := linkPtrEqual_iff.mp he
    have hxp : x = p.2.n1 ∨ x = p.2.n2 := by
      rcases wf_eq_endpoints hwfp hwfq hon with ⟨e1, e2⟩ | ⟨e1, e2⟩
      · rcases hx with h | h
        · exact Or.inl (h.trans e1)
        · exact Or.inr (h.trans e2)
      · rcases hx with h | h
        · exact Or.inr (h.trans e1)
        · exact Or.inl (h.trans e2)
    have := hcond hxp
    rw [he] at this
    exact Bool.noConfusion this

theorem addLink_any_transfer {ls : LinkState} (hinv : LSInv ls) {p : LinkPtr}
    (hwfp : WFLink p.2)
    (h1 : (ls.linkMap p.2.n1).any (fun q => linkPtrEqual p q) = false) :
    (ls.linkMap p.2.n2).any (fun q => linkPtrEqual p q) = false := by
  cases h : (ls.linkMap p.2.n2).any (fun q => linkPtrEqual p q)
  · rfl
  · exfalso
    rw [List.any_eq_true] at h
    obtain ⟨q, hq, heq⟩ := h
    have hmem := (eqEntry_mem_both hinv hwfp hq heq).1
    rw [List.any_eq_false] at h1
    exact (h1 q hmem) heq

theorem addLink_map_eq_of_dup {ls : LinkState} (hinv : LSInv ls) {p : LinkPtr}
    (hwfp : WFLink p.2)
    (hA : (ls.linkMap p.2.n1).any (fun q => linkPtrEqual p q) = true) :
    ∀ x, (ls.addLink p).linkMap x = ls.linkMap x := by
  have hB : (ls.linkMap p.2.n2).any (fun q => linkPtrEqual p q) = true := by
    rw [List.any_eq_true] at hA
    obtain ⟨q, hq, heq⟩ := hA
    have hmem := (eqEntry_mem_both hinv hwfp hq heq).2
    rw [List.any_eq_true]
    exact ⟨q, hmem, heq⟩
  intro x
  rw [addLink_linkMap]
  by_cases h2 : x = p.2.n2
  · subst h2
    rw [if_pos rfl]
    by_cases h1 : p.2.n2 = p.2.n1
    · rw [if_pos h1]
      have hinner : insertLink (ls.linkMap p.2.n1) p = ls.linkMap p.2.n1 := by
        rw [insertLink, hA]
        simp
      rw [hinner, hinner, h1]
    · rw [if_neg h1]
      rw [insertLink, hB]
      simp
  · rw [if_neg h2]
    by_cases h1 : x = p.2.n1
    · subst h1
      rw [if_pos rfl, insertLink, hA]
      simp
    · rw [if_neg h1]

theorem mem_addLink_fresh {ls : LinkState} {p : LinkPtr}
    (hA : (ls.linkMap p.2.n1).any (fun q => linkPtrEqual p q) = false)
    (hB : (ls.linkMap p.2.n2).any (fun q => linkPtrEqual p q) = false)
    (x : String) (q : LinkPtr) :
    q ∈ (ls.addLink p).linkMap x ↔
      q ∈ ls.linkMap x ∨ (q = p ∧ (x = p.2.n1 ∨ x = p.2.n2)) := by
  rw [addLink_linkMap]
  by_cases h2 : x = p.2.n2
  · subst h2
    rw [if_pos rfl]
    by_cases h1 : p.2.n2 = p.2.n1
    · rw [if_pos h1, insertLink_of_not_dup hA, insertLink_cons_self, List.mem_cons]
      constructor
      · rintro (rfl | hq)
        · exact Or.inr ⟨rfl, Or.inr rfl⟩
        · left
          rw [h1]
          exact hq
      · rintro (hq | ⟨rfl, _⟩)
        · right
          rw [← h1]
          exact hq
        · left; rfl
    · rw [if_neg h1, insertLink_of_not_dup hB, List.mem_cons]
      constructor
      · rintro (rfl | hq)
        · exact Or.inr ⟨rfl, Or.inr rfl⟩
        · exact Or.inl hq
      · rintro (hq | ⟨rfl, _⟩)
        · exact Or.inr hq
        · exact Or.inl rfl
  · rw [if_neg h2]
    by_cases h1 : x = p.2.n1
    · subst h1
      rw [if_pos rfl, insertLink_of_not_dup hA, List.mem_cons]
      constructor
      · rintro (rfl | hq)
        · exact Or.inr ⟨rfl, Or.inl rfl⟩
        · exact Or.inl hq
      · rintro (hq | ⟨rfl, _⟩)
        · exact Or.inr hq
        · exact Or.inl rfl
    · rw [if_neg h1]
      constructor
      · intro hq
        exact Or.inl hq
      · rintro (hq | ⟨rfl, (h | h)⟩)
        · exact hq
        · exact absurd h h1
        · exact absurd h h2

theorem LSInv_addLink {ls : LinkState} {p : LinkPtr} (hwfp : WFLink p.2)
    (hinv : LSInv ls) : LSInv (ls.addLink p) := by
  by_cases hA : (ls.linkMap p.2.n1).any (fun q => linkPtrEqual p q) = true
  · have heqmap := addLink_map_eq_of_dup hinv hwfp hA
    intro x q hq
    rw [heqmap] at hq
    obtain ⟨hwfq, hx, hsym⟩ := hinv x q hq
    refine ⟨hwfq, hx, ?_⟩
    rw [heqmap]
    exact hsym
  · have hA' : (ls.linkMap p.2.n1).any (fun q => linkPtrEqual p q) = false := by
      cases h : (ls.linkMap p.2.n1).any (fun q => linkPtrEqual p q)
      · rfl
      · exact absurd h hA
    have hB' := addLink_any_transfer hinv hwfp hA'
    intro x q hq
    rw [mem_addLink_fresh hA' hB'] at hq
    rcases hq with hq | ⟨rfl, hx⟩
    · obtain ⟨hwfq, hx, hsym⟩ := hinv x q hq
      refine ⟨hwfq, hx, ?_⟩
      rw [mem_addLink_fresh hA' hB']
      exact Or.inl hsym
    · refine ⟨hwfp, hx, ?_⟩
      rw [mem_addLink_fresh hA' hB']
      exact Or.inr ⟨rfl, otherNodeT_endpoint q.2 x hx⟩

-- ## removeLinksFromNode: the erase-from-other-endpoint fold

theorem eraseOtherFold_nil (n : String) (m : String → LinkSet) :
    eraseOtherFold n [] m = m := rfl

theorem eraseOtherFold_cons (n : String) (r : LinkPtr) (L : List LinkPtr)
    (m : String → LinkSet) :
    eraseOtherFold n (r :: L) m =
      eraseOtherFold n L (mapUpd m (r.2.otherNodeT n) (fun s => eraseLink s r)) := rfl

theorem eraseOtherFold_sub {n : String} :
    ∀ (L : List LinkPtr) (m : String → LinkSet) (x : String) (q : LinkPtr),
      q ∈ eraseOtherFold n L m x → q ∈ m x := by
  intro L
  induction L with
  | nil => intro m x q h; exact h
  | cons r L ih =>
    intro m x q h
    rw [eraseOtherFold_cons] at h
    have h' := ih _ x q h
    rw [mapUpd_apply] at h'
    by_cases hx : x = r.2.otherNodeT n
    · rw [if_pos hx] at h'
      rw [hx]
      exact (mem_eraseLink.mp h').1
    · rw [if_neg hx] at h'
      exact h'

theorem eraseOtherFold_erases (n : String) :
    ∀ (L : List LinkPtr) (m : String → LinkSet) (p q : LinkPtr),
      p ∈ L → linkPtrEqual p q = true →
      q ∉ eraseOtherFold n L m (p.2.otherNodeT n) := by
  intro L
  induction L with
  | nil => intro m p q hp _; exact absurd hp (List.not_mem_nil p)
  | cons r L ih =>
    intro m p q hp heq
    rw [eraseOtherFold_cons]
    rcases List.mem_cons.mp hp with rfl | hp'
    · intro hmem
      have h' := eraseOtherFold_sub L _ _ q hmem
      rw [mapUpd_apply, if_pos rfl, mem_eraseLink] at h'
      have h2 := h'.2
      rw [heq] at h2
      exact Bool.noConfusion h2
    · exact ih _ p q hp' heq

theorem eraseOtherFold_keeps {n : String} :
    ∀ (L : List LinkPtr) (m : String → LinkSet) (x : String) (q : LinkPtr),
      q ∈ m x → (∀ p ∈ L, linkPtrEqual p q = true → p.2.otherNodeT n ≠ x) →
      q ∈ eraseOtherFold n L m x := by
  intro L
  induction L with
  | nil => intro m x q hq _; exact hq
  | cons r L ih =>
    intro m x q hq hcond
    rw [eraseOtherFold_cons]
    apply ih
    · rw [mapUpd_apply]
      by_cases hx : x = r.2.otherNodeT n
      · rw [if_pos hx, mem_eraseLink]
        refine ⟨?_, ?_⟩
        · rw [← hx]; exact hq
        · cases he : linkPtrEqual r q
          · rfl
          · exact absurd hx.symm (hcond r (List.mem_cons_self r L) he)
      · rw [if_neg hx]
        exact hq
    · intro p hp heq
      exact hcond p (List.mem_cons_of_mem r hp) heq

theorem LSInv_removeFrom {ls : LinkState} {n : String} (hinv : LSInv ls) :
    LSInv (ls.removeLinksFromNode n) := by
  intro x q hq
  rw [removeFrom_linkMap] at hq
  by_cases hx : x = n
  · rw [if_pos hx] at hq
    exact absurd hq (List.not_mem_nil q)
  · rw [if_neg hx] at hq
    have hmem := eraseOtherFold_sub _ _ _ _ hq
    obtain ⟨hwfq, hxe, hsym⟩ := hinv x q hmem
    refine ⟨hwfq, hxe, ?_⟩
    have hoe : q.2.otherNodeT x = q.2.n1 ∨ q.2.otherNodeT x = q.2.n2 :=
      otherNodeT_endpoint q.2 x hxe
    by_cases hon : q.2.otherNodeT x = n
    · exfalso
      have hqn : q ∈ ls.linkMap n := by rw [← hon]; exact hsym
      have hnend : n = q.2.n1 ∨ n = q.2.n2 := by rw [← hon]; exact hoe
      have hback : q.2.otherNodeT n = x :=
        otherNodeT_of_two q.2 x n hxe hnend hx
      have herase := eraseOtherFold_erases n (ls.linkMap n) ls.linkMap q q hqn
        (linkPtrEqual_refl q)
      rw [hback] at herase
      exact herase hq
    · rw [removeFrom_linkMap, if_neg hon]
      apply eraseOtherFold_keeps
      · exact hsym
      · intro r hr heq
        intro _
        obtain ⟨hwfr, hner, _⟩ := hinv n r hr
        have honr : r.2.orderedNames = q.2.orderedNames := linkPtrEqual_iff.mp heq
        have hnq : n = q.2.n1 ∨ n = q.2.n2 := by
          rcases wf_eq_endpoints hwfr hwfq honr with ⟨e1, e2⟩ | ⟨e1, e2⟩
          · rcases hner with h | h
            · exact Or.inl (h.trans e1.symm)
            · exact Or.inr (h.trans e2.symm)
          · rcases hner with h | h
            · exact Or.inr (h.trans e2.symm)
            · exact Or.inl (h.trans e1.symm)
        rcases otherNodeT_cases q.2 x hxe with ⟨ex, eo⟩ | ⟨ex, eo⟩
        · rcases hnq with h | h
          · exact hx (ex.trans h.symm)
          · exact hon (eo.trans h.symm)
        · rcases hnq with h | h
          · exact hon (eo.trans h.symm)
          · exact hx (ex.trans h.symm)

-- ## Per-node sets never hold two value-equal entries

theorem pairwise_insertLink {s : LinkSet} {p : LinkPtr}
    (hs : s.Pairwise (fun a b => linkPtrEqual a b = false)) :
    (insertLink s p).Pairwise (fun a b => linkPtrEqual a b = false) := by
  rw [insertLink]
  by_cases h : s.any (fun q => linkPtrEqual p q) = true
  · rw [if_pos h]
    exact hs
  · have h' : s.any (fun q => linkPtrEqual p q) = false := by
      cases hh : s.any (fun q => linkPtrEqual p q)
      · rfl
      · exact absurd hh h
    rw [if_neg h]
    refine List.Pairwise.cons ?_ hs
    intro b hb
    rw [List.any_eq_false] at h'
    have hb' := h' b hb
    cases hh : linkPtrEqual p b
    · rfl
    · exact absurd hh hb'

theorem nodup_addLink {ls : LinkState} {p : LinkPtr} (h : NodupSets ls) :
    NodupSets (ls.addLink p) := by
  intro x
  rw [addLink_linkMap]
  by_cases h2 : x = p.2.n2
  · rw [if_pos h2]
    by_cases h1 : p.2.n2 = p.2.n1
    · rw [if_pos h1]
      exact pairwise_insertLink (pairwise_insertLink (h _))
    · rw [if_neg h1]
      exact pairwise_insertLink (h _)
  · rw [if_neg h2]
    by_cases h1 : x = p.2.n1
    · rw [if_pos h1]
      exact pairwise_insertLink (h _)
    · rw [if_neg h1]
      exact h x

theorem nodup_removeLink {ls : LinkState} {p : LinkPtr} (h : NodupSets ls) :
    NodupSets (ls.removeLink p) := by
  intro x
  rw [removeLink_linkMap]
  by_cases h2 : x = p.2.n2
  · rw [if_pos h2]
    by_cases h1 : p.2.n2 = p.2.n1
    · rw [if_pos h1]
      exact ((h _).filter _).filter _
    · rw [if_neg h1]
      exact (h _).filter _
  · rw [if_neg h2]
    by_cases h1 : x = p.2.n1
    · rw [if_pos h1]
      exact (h _).filter _
    · rw [if_neg h1]
      exact h x

theorem nodup_removeFrom {ls : LinkState} {n : String} (h : NodupSets ls) :
    NodupSets (ls.removeLinksFromNode n) := by
  have hfold : ∀ (L : List LinkPtr) (m : String → LinkSet),
      (∀ x, (m x).Pairwise (fun a b => linkPtrEqual a b = false)) →
      ∀ x, ((eraseOtherFold n L m) x).Pairwise (fun a b => linkPtrEqual a b = false) := by
    intro L
    induction L with
    | nil => intro m hm x; exact hm x
    | cons r L ih =>
      intro m hm x
      rw [eraseOtherFold_cons]
      apply ih
      intro y
      rw [mapUpd_apply]
      by_cases hy : y = r.2.otherNodeT n
      · rw [if_pos hy]
        exact (hm _).filter _
      · rw [if_neg hy]
        exact hm y
  intro x
  rw [removeFrom_linkMap]
  by_cases hx : x = n
  · rw [if_pos hx]
    exact List.Pairwise.nil
  · rw [if_neg hx]
    exact hfold _ _ h x

-- ## Reachability

theorem applyOp_preserves {ls : LinkState} (op : LSOp) (hinv : LSInv ls)
    (hnd : NodupSets ls) : LSInv (applyOp ls op) ∧ NodupSets (applyOp ls op) := by
  cases op with
  | add a n1 j1 n2 j2 => exact ⟨LSInv_addLink rfl hinv, nodup_addLink hnd⟩
  | remove a n1 j1 n2 j2 => exact ⟨LSInv_removeLink rfl hinv, nodup_removeLink hnd⟩
  | removeFrom m => exact ⟨LSInv_removeFrom hinv, nodup_removeFrom hnd⟩

theorem applyOps_inv (ops : List LSOp) :
    LSInv (applyOps ops) ∧ NodupSets (applyOps ops) := by
  have hgen : ∀ (l : List LSOp) (ls : LinkState), LSInv ls → NodupSets ls →
      LSInv (l.foldl applyOp ls) ∧ NodupSets (l.foldl applyOp ls) := by
    intro l
    induction l with
    | nil => intro ls h1 h2; exact ⟨h1, h2⟩
    | cons op l ih =>
      intro ls h1 h2
      rw [List.foldl_cons]
      obtain ⟨h1', h2'⟩ := applyOp_preserves op h1 h2
      exact ih _ h1' h2'
  apply hgen
  · intro n p hp
    exact absurd hp (List.not_mem_nil p)
  · intro n
    exact List.Pairwise.nil

/-- C1: in every LinkState reachable from the empty database by addLink /
removeLink / removeLinksFromNode calls, every Link entry stored under a
node `n` is also stored — the same shared entry — under
`getOtherNodeName(n)` (which in particular succeeds, `n` being an
endpoint). -/
theorem linkState_symmetry (ops : List LSOp) (n : String) (p : LinkPtr)
    (hp : p ∈ (applyOps ops).linksFromNode n) :
    ∃ other, p.2.getOtherNodeName n = Except.ok other ∧
      p ∈ (applyOps ops).linksFromNode other := by
  obtain ⟨hinv, _⟩ := applyOps_inv ops
  obtain ⟨_, hx, hsym⟩ := hinv n p hp
  refine ⟨p.2.otherNodeT n, ?_, hsym⟩
  rw [Link.getOtherNodeName, Link.otherNodeT]
  by_cases h : n = p.2.n1
  · rw [if_pos h, if_pos h]
  · rcases hx with h' | h'
    · exact absurd h' h
    · rw [if_neg h, if_neg h, if_pos h']

def adjA : Adjacency := ⟨"B", "eth0", some 10, 0, false, ⟨[1], none⟩, ⟨[2], none⟩⟩

def adjB : Adjacency := ⟨"A", "eth1", some 10, 0, false, ⟨[3], none⟩, ⟨[4], none⟩⟩

theorem linkState_symmetry_witness :
    ∃ other,
      ((0, mkLink "A" adjA "B" adjB) : LinkPtr).2.getOtherNodeName "A"
        = Except.ok other ∧
      ((0, mkLink "A" adjA "B" adjB) : LinkPtr) ∈
        (applyOps [LSOp.add 0 "A" adjA "B" adjB]).linksFromNode other :=
  linkState_symmetry [LSOp.add 0 "A" adjA "B" adjB] "A" (0, mkLink "A" adjA "B" adjB)
    (by decide)

/-- C2: after `removeLinksFromNode(n)` on any reachable LinkState,
`linksFromNode(n)` is empty and no remaining entry anywhere in the
database has `n` as either endpoint node name. -/
theorem removeLinksFromNode_complete (ops : List LSOp) (n : String) :
    ((applyOps ops).removeLinksFromNode n).linksFromNode n = [] ∧
    ∀ x q, q ∈ ((applyOps ops).removeLinksFromNode n).linksFromNode x →
      ¬ (q.2.n1 = n ∨ q.2.n2 = n) := by
  obtain ⟨hinv, _⟩ := applyOps_inv ops
  constructor
  · show ((applyOps ops).removeLinksFromNode n).linkMap n = []
    rw [removeFrom_linkMap, if_pos rfl]
  · intro x q hq
    show ¬ _
    rw [LinkState.linksFromNode, removeFrom_linkMap] at hq
    by_cases hx : x = n
    · rw [if_pos hx] at hq
      exact absurd hq (List.not_mem_nil q)
    · rw [if_neg hx] at hq
      have hmem := eraseOtherFold_sub _ _ _ _ hq
      obtain ⟨_, hxe, hsym⟩ := hinv x q hmem
      intro hOr
      have hnend : n = q.2.n1 ∨ n = q.2.n2 := by
        rcases hOr with h | h
        · exact Or.inl h.symm
        · exact Or.inr h.symm
      have hxn : q.2.otherNodeT x = n :=
        otherNodeT_of_two q.2 n x hnend hxe (fun h => hx h.symm)
      have hqn : q ∈ (applyOps ops).linkMap n := by
        rw [← hxn]
        exact hsym
      have hback : q.2.otherNodeT n = x :=
        otherNodeT_of_two q.2 x n hxe hnend hx
      have herase := eraseOtherFold_erases n ((applyOps ops).linkMap n)
        (applyOps ops).linkMap q q hqn (linkPtrEqual_refl q)
      rw [hback] at herase
      exact herase hq

/-- C10: per-node LinkSet membership is decided by the value of the
pointed-to Link, not shared_ptr identity: no reachable per-node set holds
two entries with equal Links; `removeLink(r)` removes exactly the
value-equal entries of the two endpoint sets of `r`, whatever address the
passed pointer has; and LinkPtrHash agrees on LinkPtrEqual-equal
constructed links. -/
theorem linkSet_value_semantics :
    (∀ ops n, ((applyOps ops).linksFromNode n).Pairwise
        (fun a b => linkPtrEqual a b = false)) ∧
    (∀ (ls : LinkState) (r q : LinkPtr) (x : String), linkPtrEqual r q = true →
      (q ∈ (ls.removeLink r).linksFromNode x ↔
        (q ∈ ls.linksFromNode x ∧ ¬ (x = r.2.n1 ∨ x = r.2.n2)))) ∧
    (∀ (a b : Nat) (n1 m1 n2 m2 : String) (j1 j2 k1 k2 : Adjacency),
      linkPtrEqual (a, mkLink n1 j1 n2 j2) (b, mkLink m1 k1 m2 k2) = true →
      linkPtrHash (a, mkLink n1 j1 n2 j2) = linkPtrHash (b, mkLink m1 k1 m2 k2)) := by
  refine ⟨fun ops n => (applyOps_inv ops).2 n, ?_, ?_⟩
  · intro ls r q x heq
    show q ∈ (ls.removeLink r).linkMap x ↔ _
    rw [mem_removeLink]
    constructor
    · rintro ⟨hq, hcond⟩
      refine ⟨hq, ?_⟩
      intro hor
      have hfalse := hcond hor
      rw [heq] at hfalse
      exact Bool.noConfusion hfalse
    · rintro ⟨hq, hnor⟩
      exact ⟨hq, fun hor => absurd hor hnor⟩
  · intro a b n1 m1 n2 m2 j1 j2 k1 k2 heq
    have hon := linkPtrEqual_iff.mp heq
    show (mkLink n1 j1 n2 j2).hash = (mkLink m1 k1 m2 k2).hash
    show onHash (mkLink n1 j1 n2 j2).orderedNames
      = onHash (mkLink m1 k1 m2 k2).orderedNames
    rw [hon]

-- ## Sorting by the Link ordering

theorem linkPtrLess_asymm {a b : LinkPtr} (h : linkPtrLess a b = true) :
    linkPtrLess b a = false :=
  onLt_asymm a.2.orderedNames b.2.orderedNames h

theorem linkPtrLess_trans {a b c : LinkPtr} (h1 : linkPtrLess a b = true)
    (h2 : linkPtrLess b c = true) : linkPtrLess a c = true :=
  onLt_trans a.2.orderedNames b.2.orderedNames c.2.orderedNames h1 h2

theorem linkPtrLess_conn {a b : LinkPtr} (h1 : linkPtrLess a b = false)
    (h2 : linkPtrLess b a = false) : linkPtrEqual a b = true := by
  have hon := onLt_conn a.2.orderedNames b.2.orderedNames h1 h2
  rw [linkPtrEqual, Link.eq, hon]
  simp

/-- Sorted in the Link ordering: no later entry is strictly below an
earlier one. -/
def SortedLinks (l : List LinkPtr) : Prop :=
  l.Pairwise (fun a b => linkPtrLess b a = false)

theorem perm_insertSortedLink (p : LinkPtr) :
    ∀ l : List LinkPtr, (insertSortedLink p l).Perm (p :: l) := by
  intro l
  induction l with
  | nil => exact List.Perm.refl _
  | cons q qs ih =>
    rw [insertSortedLink]
    by_cases h : linkPtrLess p q = true
    · rw [if_pos h]
    · rw [if_neg h]
      exact ((ih.cons q).trans (List.Perm.swap p q qs))

theorem perm_sortLinks : ∀ l : List LinkPtr, (sortLinks l).Perm l := by
  intro l
  induction l with
  | nil => exact List.Perm.refl _
  | cons p ps ih =>
    rw [sortLinks]
    exact (perm_insertSortedLink p (sortLinks ps)).trans (ih.cons p)

theorem sorted_insertSortedLink {p : LinkPtr} :
    ∀ {l : List LinkPtr}, SortedLinks l → SortedLinks (insertSortedLink p l) := by
  intro l
  induction l with
  | nil =>
    intro _
    exact List.pairwise_singleton _ _
  | cons q qs ih =>
    intro hs
    rw [insertSortedLink]
    obtain ⟨hq, hqs⟩ := List.pairwise_cons.mp hs
    by_cases h : linkPtrLess p q = true
    · rw [if_pos h]
      refine List.Pairwise.cons ?_ hs
      intro b hb
      rcases List.mem_cons.mp hb with rfl | hb'
      · exact linkPtrLess_asymm h
      · cases hbp : linkPtrLess b p
        · rfl
        · exfalso
          have hbq := linkPtrLess_trans hbp h
          rw [hq b hb'] at hbq
          exact Bool.noConfusion hbq
    · rw [if_neg h]
      have h' : linkPtrLess p q = false := by
        cases hh : linkPtrLess p q
        · rfl
        · exact absurd hh h
      refine List.Pairwise.cons ?_ (ih hqs)
      intro b hb
      have hb' := (perm_insertSortedLink p qs).mem_iff.mp hb
      rcases List.mem_cons.mp hb' with rfl | hb''
      · exact h'
      · exact hq b hb''

theorem sorted_sortLinks : ∀ l : List LinkPtr, SortedLinks (sortLinks l) := by
  intro l
  induction l with
  | nil => exact List.Pairwise.nil
  | cons p ps ih =>
    rw [sortLinks]
    exact sorted_insertSortedLink ih

theorem sorted_perm_unique : ∀ l1 l2 : List LinkPtr,
    l1.Pairwise (fun a b => linkPtrEqual a b = false) → l1.Perm l2 →
    SortedLinks l1 → SortedLinks l2 → l1 = l2 := by
  intro l1
  induction l1 with
  | nil =>
    intro l2 _ hperm _ _
    exact List.Perm.nil_eq hperm
  | cons a t1 ih =>
    intro l2 hnd hperm hs1 hs2
    cases l2 with
    | nil =>
      exfalso
      have hcontra := List.Perm.nil_eq hperm.symm
      simp at hcontra
    | cons b t2 =>
      obtain ⟨ha1, ht1⟩ := List.pairwise_cons.mp hnd
      obtain ⟨hsa, hst1⟩ := List.pairwise_cons.mp hs1
      obtain ⟨hsb, hst2⟩ := List.pairwise_cons.mp hs2
      have hab : a = b := by
        by_cases h : a = b
        · exact h
        · exfalso
          have hainl2 : a ∈ b :: t2 := hperm.mem_iff.mp (List.mem_cons_self a t1)
          have hbinl1 : b ∈ a :: t1 := hperm.mem_iff.mpr (List.mem_cons_self b t2)
          have ha2 : a ∈ t2 := by
            rcases List.mem_cons.mp hainl2 with h' | h'
            · exact absurd h' h
            · exact h'
          have hb1 : b ∈ t1 := by
            rcases List.mem_cons.mp hbinl1 with h' | h'
            · exact absurd h'.symm h
            · exact h'
          have hlt1 : linkPtrLess b a = false := hsa b hb1
          have hlt2 : linkPtrLess a b = false := hsb a ha2
          have heq := linkPtrLess_conn hlt2 hlt1
          rw [ha1 b hb1] at heq
          exact Bool.noConfusion heq
      subst hab
      have hperm' : t1.Perm t2 := hperm.cons_inv
      rw [ih t2 ht1 hperm' hst1 hst2]

/-- C9: `orderedLinksFromNode` returns exactly the entries of
`linksFromNode` sorted by the Link ordering, and the sorted output is
canonical: replaying the same call sequence — or presenting the same link
set in any iteration order — produces identical output. -/
theorem orderedLinks_deterministic (ops : List LSOp) (x : String) :
    ((applyOps ops).orderedLinksFromNode x).Perm ((applyOps ops).linksFromNode x) ∧
    SortedLinks ((applyOps ops).orderedLinksFromNode x) ∧
    (∀ s : List LinkPtr, s.Perm ((applyOps ops).linksFromNode x) →
      sortLinks s = (applyOps ops).orderedLinksFromNode x) := by
  refine ⟨perm_sortLinks _, sorted_sortLinks _, ?_⟩
  intro s hperm
  have hnd := (applyOps_inv ops).2 x
  have hSymm : Symmetric (fun a b : LinkPtr => linkPtrEqual a b = false) := by
    intro a b h
    rw [linkPtrEqual_comm]
    exact h
  have hps : (sortLinks s).Perm ((applyOps ops).linksFromNode x) :=
    (perm_sortLinks s).trans hperm
  have hnds : (sortLinks s).Pairwise (fun a b => linkPtrEqual a b = false) :=
    (List.Perm.pairwise_iff (fun h => hSymm h) hps).mpr hnd
  exact sorted_perm_unique (sortLinks s) ((applyOps ops).orderedLinksFromNode x)
    hnds (hps.trans (perm_sortLinks _).symm) (sorted_sortLinks s) (sorted_sortLinks _)
